import Mathlib

/-
Verification of the core logic of dev/ctanpkglist.py: the CTAN catalog
loader, the ls-R filesystem-index parser, the package resolver, the class
extractor and the extras merger.

Python strings are modelled as lists of characters (Str), Python dicts as
ordered association lists with unique keys (Dict), and pathlib.Path
operations (parts, name, suffix, stem) are modelled explicitly on Str.
-/

namespace Ctanpkglist

/-- Python strings, modelled as lists of characters. -/
abbrev Str := List Char

/-- Python str.startswith. -/
def startswith (s pre : Str) : Bool := pre.isPrefixOf s

/-- Python str.endswith. -/
def endswith (s suf : Str) : Bool := suf.isSuffixOf s

/-- Python str.lower (ASCII casing, as used for the file names here). -/
def lowerStr (s : Str) : Str := s.map Char.toLower

/-- One split of a character list at every occurrence of a separator,
as Python pathlib does on the slash. -/
def splitChar (sep : Char) : Str → List Str
  | [] => [[]]
  | c :: cs =>
    match splitChar sep cs with
    | [] => [[]]
    | p :: ps => if c = sep then [] :: p :: ps else (c :: p) :: ps

/-- A path piece is kept by pathlib iff it is neither empty nor a lone dot. -/
def keepPart (p : Str) : Bool := decide (p ≠ [] ∧ p ≠ ['.'])

/-- pathlib.PurePosixPath(s).parts for a relative path: slash-separated
pieces with empty pieces and "." pieces removed. -/
def pathParts (s : Str) : List Str := (splitChar '/' s).filter keepPart

/-- pathlib.PurePosixPath(s).name: the last path component. -/
def pathName (s : Str) : Str := (pathParts s).getLast?.getD []

/-- Python str.rfind of a dot: index of the last dot, if any. -/
def rfindDot (n : Str) : Option Nat :=
  match n.reverse.findIdx? (fun c => c == '.') with
  | none => none
  | some j => some (n.length - 1 - j)

/-- pathlib.PurePosixPath(s).suffix: from the last dot of the name to its
end, provided that dot is neither the first nor the last character. -/
def pathSuffix (s : Str) : Str :=
  match rfindDot (pathName s) with
  | none => []
  | some i =>
    if 0 < i ∧ i < (pathName s).length - 1 then (pathName s).drop i else []

/-- pathlib.PurePosixPath(s).stem: the name with its suffix removed. -/
def pathStem (s : Str) : Str :=
  match rfindDot (pathName s) with
  | none => pathName s
  | some i =>
    if 0 < i ∧ i < (pathName s).length - 1 then (pathName s).take i else pathName s

/-- Python dict with Str keys: an ordered association list whose keys are
unique in any dict actually built by the script. -/
abbrev Dict (α : Type) := List (Str × α)

/-- Python d[k] lookup (first entry with the key). -/
def dlookup {α : Type} (d : Dict α) (k : Str) : Option α :=
  (d.find? (fun p => decide (p.1 = k))).map Prod.snd

/-- Python `k in d`. -/
def dmem {α : Type} (d : Dict α) (k : Str) : Bool := (dlookup d k).isSome

/-- Python d.keys(), in insertion order. -/
def dkeys {α : Type} (d : Dict α) : List Str := d.map Prod.fst

/-- Python d[k] = v: overwrite in place if the key exists, else append. -/
def dinsert {α : Type} (d : Dict α) (k : Str) (v : α) : Dict α :=
  if dmem d k then d.map (fun p => if p.1 = k then (k, v) else p)
  else d ++ [(k, v)]

/-- Python d[k].extend(files) after `if k not in d: d[k] = []`. -/
def dextend (d : Dict (List Str)) (k : Str) (files : List Str) : Dict (List Str) :=
  match dlookup d k with
  | none => d ++ [(k, files)]
  | some old => d.map (fun p => if p.1 = k then (k, old ++ files) else p)

/-! ## String constants of the script -/

/-- The literal "./doc". -/
def chDoc : Str := ['.', '/', 'd', 'o', 'c']

/-- The literal "./source". -/
def chSource : Str := ['.', '/', 's', 'o', 'u', 'r', 'c', 'e']

/-- The literal "./". -/
def chDotSlash : Str := ['.', '/']

/-- The literal ".sty". -/
def extSty : Str := ['.', 's', 't', 'y']

/-- The literal ".def". -/
def extDef : Str := ['.', 'd', 'e', 'f']

/-- The literal ".cls". -/
def extCls : Str := ['.', 'c', 'l', 's']

/-- The extension whitelist ['.sty', '.def', '.cls'] of load_texmfbd. -/
def exts : List Str := [extSty, extDef, extCls]

/-- The literal "https://ctan.org/pkg/". -/
def ctanUrl : Str :=
  ['h', 't', 't', 'p', 's', ':', '/', '/', 'c', 't', 'a', 'n', '.', 'o', 'r', 'g',
   '/', 'p', 'k', 'g', '/']

/-! ## Catalog Loader (build_ctanDict) -/

/-- A raw CTAN catalog record, with its `key` and `caption` fields. -/
structure CtanItem where
  key : Str
  caption : Str
deriving DecidableEq

/-- The record {command, documentation, detail} stored in every table. -/
structure PkgRecord where
  command : Str
  documentation : Str
  detail : Str
deriving DecidableEq

/-- The record build_ctanDict stores for one raw catalog item. -/
def mkCtanRecord (x : CtanItem) : PkgRecord :=
  { command := x.key, documentation := ctanUrl ++ x.key, detail := x.caption }

/-- build_ctanDict: map each raw item's key to its derived record
(later items with the same key overwrite earlier ones, as a Python dict). -/
def build_ctanDict (ctanList : List CtanItem) : Dict PkgRecord :=
  ctanList.foldl (fun d x => dinsert d x.key (mkCtanRecord x)) []

/-! ## Filesystem Index Parser (load_texmfbd) -/

/-- The loop state of load_texmfbd: the lsRdb dict under construction, the
current package (pkg), the per-block accumulator (pkgfiles) and the flat
file list (allfiles). -/
structure ParserState where
  lsRdb : Dict (List Str)
  pkg : Option Str
  pkgfiles : List Str
  allfiles : List Str
deriving DecidableEq

/-- The state at the top of load_texmfbd. -/
def initState : ParserState := ⟨[], none, [], []⟩

/-- The `for part in reversed(Path(dir).parts): if part in allpkgs` scan:
first path segment, taken innermost first, that is a known catalog key. -/
def findPkg (allpkgs : List Str) (parts : List Str) : Option Str :=
  parts.reverse.find? (fun part => decide (part ∈ allpkgs))

/-- The header handling of one loop iteration: a line ending in a colon
and starting with "./" switches the current package to the innermost path
segment that is a catalog key (or none) and clears the accumulator. -/
def headerUpdate (allpkgs : List Str) (s : ParserState) (line : Str) : ParserState :=
  if endswith line [':'] && startswith line chDotSlash then
    { s with pkg := findPkg allpkgs (pathParts line.dropLast), pkgfiles := [] }
  else s

/-- The rest of one loop iteration: skip when no package is current,
collect a whitelisted file name on a non-blank line, commit the
accumulator to lsRdb on a blank line. -/
def blockScan (s1 : ParserState) (line : Str) : ParserState :=
  match s1.pkg with
  | none => s1
  | some pkg =>
    if line ≠ [] then
      if pathSuffix line ∈ exts then
        { s1 with pkgfiles := s1.pkgfiles ++ [pathName line],
                  allfiles := s1.allfiles ++ [pathName line] }
      else s1
    else
      if s1.pkgfiles.length > 0 then
        { s1 with lsRdb := dextend s1.lsRdb pkg s1.pkgfiles, pkg := none }
      else
        { s1 with pkg := none }

/-- One iteration of the line loop of load_texmfbd: doc and source lines
are skipped outright, every other line goes through the header handling
and then the block scan. -/
def step (allpkgs : List Str) (s : ParserState) (line : Str) : ParserState :=
  if startswith line chDoc || startswith line chSource then s
  else blockScan (headerUpdate allpkgs s line) line

/-- The whole line loop, from the initial state. -/
def runParser (allpkgs : List Str) (lines : List Str) : ParserState :=
  lines.foldl (step allpkgs) initState

/-- load_texmfbd: parse the ls-R lines against the catalog keys and return
(lsRdb, allfiles). -/
def load_texmfbd (lines : List Str) (ctanDict : Dict PkgRecord) :
    Dict (List Str) × List Str :=
  let fin := runParser (dkeys ctanDict) lines
  (fin.lsRdb, fin.allfiles)

/-! ## Package Resolver (package2sty, get_packages) -/

/-- package2sty: find the command name for a package, or none. -/
def package2sty (pkgname : Str) (lsRdb : Dict (List Str)) (allsty : List Str) :
    Option Str :=
  if pkgname ++ extSty ∈ allsty then some pkgname
  else
    match dlookup lsRdb pkgname with
    | some files =>
      if pkgname ++ extSty ∈ files then some pkgname
      else
        match files.find? (fun f => decide (lowerStr f = pkgname ++ extSty)) with
        | some f => some (pathStem f)
        | none => none
    | none => none

/-- One iteration of the get_packages loop over the catalog entries. -/
def pkgStep (lsRdb : Dict (List Str)) (allsty : List Str)
    (package_data : Dict PkgRecord) (p : Str × PkgRecord) : Dict PkgRecord :=
  match package2sty p.1 lsRdb allsty with
  | some basefile => dinsert package_data p.1 { p.2 with command := basefile }
  | none => package_data

/-- get_packages: keep every catalog package whose command resolves, with
command overwritten to the resolved value. -/
def get_packages (lsRdb : Dict (List Str)) (ctanDict : Dict PkgRecord)
    (allsty : List Str) : Dict PkgRecord :=
  ctanDict.foldl (pkgStep lsRdb allsty) []

/-! ## Class Extractor (get_classes) -/

/-- The record get_classes stores for a class stem: detail and
documentation copied from the catalog when the stem is a key there,
otherwise empty. -/
def classRecord (ctanDict : Dict PkgRecord) (base : Str) : PkgRecord :=
  match dlookup ctanDict base with
  | some r => { command := base, documentation := r.documentation, detail := r.detail }
  | none => { command := base, documentation := [], detail := [] }

/-- One iteration of the get_classes loop over allfiles. -/
def clsStep (ctanDict : Dict PkgRecord) (class_data : Dict PkgRecord) (c : Str) :
    Dict PkgRecord :=
  if endswith c extCls then dinsert class_data (pathStem c) (classRecord ctanDict (pathStem c))
  else class_data

/-- get_classes: one entry per stem of a ".cls" file of allfiles. -/
def get_classes (all_lsR_files : List Str) (ctanDict : Dict PkgRecord) :
    Dict PkgRecord :=
  all_lsR_files.foldl (clsStep ctanDict) []

/-! ## Extras Merger (add_extra_packages) -/

/-- One iteration of the add_extra_packages loop. -/
def extraStep (packages : Dict PkgRecord) (p : Str × PkgRecord) : Dict PkgRecord :=
  if dmem packages p.1 then packages else packages ++ [(p.1, p.2)]

/-- add_extra_packages: insert every extras entry whose key is not already
present; never overwrite an existing entry. -/
def add_extra_packages (packages extra_packages : Dict PkgRecord) : Dict PkgRecord :=
  extra_packages.foldl extraStep packages

/-! ## Lemmas about the dict model -/

theorem dlookup_nil {α : Type} (k : Str) : dlookup ([] : Dict α) k = none := rfl

theorem dlookup_cons {α : Type} (k₁ : Str) (v₁ : α) (d : Dict α) (k : Str) :
    dlookup ((k₁, v₁) :: d) k = if k₁ = k then some v₁ else dlookup d k := by
  by_cases h : k₁ = k <;> simp [dlookup, List.find?_cons, h]

theorem dlookup_append_some {α : Type} {d₁ : Dict α} {k : Str} {v : α}
    (d₂ : Dict α) (h : dlookup d₁ k = some v) : dlookup (d₁ ++ d₂) k = some v := by
  induction d₁ with
  | nil => simp [dlookup_nil] at h
  | cons hd tl ih =>
    rcases hd with ⟨k₁, v₁⟩
    by_cases hk : k₁ = k <;>
      simp_all [List.cons_append, dlookup_cons, hk]

theorem dlookup_append_none {α : Type} {d₁ : Dict α} {k : Str}
    (d₂ : Dict α) (h : dlookup d₁ k = none) : dlookup (d₁ ++ d₂) k = dlookup d₂ k := by
  induction d₁ with
  | nil => simp [List.nil_append]
  | cons hd tl ih =>
    rcases hd with ⟨k₁, v₁⟩
    by_cases hk : k₁ = k <;>
      simp_all [List.cons_append, dlookup_cons, hk]

theorem dlookup_map_upd_self {α : Type} {d : Dict α} {k : Str} {v : α} (w : α)
    (h : dlookup d k = some v) :
    dlookup (d.map (fun p => if p.1 = k then (k, w) else p)) k = some w := by
  induction d with
  | nil => simp [dlookup_nil] at h
  | cons hd tl ih =>
    rcases hd with ⟨k₁, v₁⟩
    by_cases hk : k₁ = k <;>
      simp_all [List.map_cons, dlookup_cons, hk]

theorem dlookup_map_upd_ne {α : Type} (d : Dict α) {k k' : Str} (w : α)
    (hne : k' ≠ k) :
    dlookup (d.map (fun p => if p.1 = k then (k, w) else p)) k' = dlookup d k' := by
  induction d with
  | nil => simp
  | cons hd tl ih =>
    rcases hd with ⟨k₁, v₁⟩
    by_cases hk : k₁ = k
    · subst hk
      simp only [List.map_cons, if_pos rfl]
      rw [dlookup_cons, dlookup_cons, if_neg (fun h => hne h.symm),
        if_neg (fun h => hne h.symm), ih]
    · simp only [List.map_cons, if_neg hk]
      rw [dlookup_cons, dlookup_cons, ih]

theorem dmem_iff_exists {α : Type} (d : Dict α) (k : Str) :
    dmem d k = true ↔ ∃ v, dlookup d k = some v := by
  simp [dmem, Option.isSome_iff_exists]

theorem dmem_eq_false_iff {α : Type} (d : Dict α) (k : Str) :
    dmem d k = false ↔ dlookup d k = none := by
  cases h : dlookup d k <;> simp [dmem, h]

theorem dlookup_dinsert_self {α : Type} (d : Dict α) (k : Str) (v : α) :
    dlookup (dinsert d k v) k = some v := by
  unfold dinsert
  by_cases hm : dmem d k
  · rcases (dmem_iff_exists d k).mp hm with ⟨v₀, hv₀⟩
    simp only [hm, if_true]
    exact dlookup_map_upd_self v hv₀
  · simp only [hm, Bool.false_eq_true, if_false]
    rw [dlookup_append_none _ ((dmem_eq_false_iff d k).mp (by simpa using hm))]
    simp [dlookup_cons]

theorem dlookup_dinsert_ne {α : Type} (d : Dict α) {k k' : Str} (v : α)
    (hne : k' ≠ k) : dlookup (dinsert d k v) k' = dlookup d k' := by
  unfold dinsert
  by_cases hm : dmem d k
  · simp only [hm, if_true]
    exact dlookup_map_upd_ne d v hne
  · simp only [hm, Bool.false_eq_true, if_false]
    cases h : dlookup d k' with
    | some w => exact dlookup_append_some _ h
    | none =>
      rw [dlookup_append_none _ h, dlookup_cons, if_neg (fun he => hne he.symm)]
      rfl

theorem dlookup_eq_none_iff {α : Type} (d : Dict α) (k : Str) :
    dlookup d k = none ↔ k ∉ dkeys d := by
  induction d with
  | nil => simp [dlookup_nil, dkeys]
  | cons hd tl ih =>
    rcases hd with ⟨k₁, v₁⟩
    rw [dlookup_cons]
    by_cases hk : k₁ = k
    · subst hk
      simp only [if_pos rfl]
      constructor
      · intro h; cases h
      · intro h
        exact absurd (List.mem_cons_self k₁ (dkeys tl)) h
    · simp only [if_neg hk, dkeys, List.map_cons, List.mem_cons, ih]
      constructor
      · intro h hmem
        rcases hmem with h1 | h1
        · exact hk h1.symm
        · exact h h1
      · intro h hmem
        exact h (Or.inr hmem)

theorem dkeys_cons {α : Type} (p : Str × α) (d : Dict α) :
    dkeys (p :: d) = p.1 :: dkeys d := rfl

theorem dkeys_map_upd {α : Type} (d : Dict α) (k : Str) (w : α) :
    dkeys (d.map (fun p => if p.1 = k then (k, w) else p)) = dkeys d := by
  induction d with
  | nil => rfl
  | cons hd tl ih =>
    rcases hd with ⟨k₁, v₁⟩
    rw [List.map_cons, dkeys_cons, dkeys_cons, ih]
    by_cases hk : k₁ = k
    · rw [if_pos hk, hk]
    · rw [if_neg hk]

theorem dkeys_dinsert_nodup {α : Type} (d : Dict α) (k : Str) (v : α)
    (h : (dkeys d).Nodup) : (dkeys (dinsert d k v)).Nodup := by
  unfold dinsert
  by_cases hm : dmem d k
  · simpa [hm, dkeys_map_upd] using h
  · have hk : k ∉ dkeys d :=
      (dlookup_eq_none_iff d k).mp ((dmem_eq_false_iff d k).mp (by simpa using hm))
    simp only [hm, Bool.false_eq_true, if_false]
    have : dkeys (d ++ [(k, v)]) = dkeys d ++ [k] := by simp [dkeys]
    rw [this, List.nodup_append]
    exact ⟨h, List.nodup_singleton k, by
      intro a ha hb
      rw [List.mem_singleton] at hb
      subst hb
      exact hk ha⟩

theorem dlookup_mem_value {α : Type} {d : Dict α} {k : Str} {v : α}
    (h : dlookup d k = some v) : ∃ p ∈ d, p.2 = v := by
  unfold dlookup at h
  rcases Option.map_eq_some'.mp h with ⟨p, hp, hv⟩
  exact ⟨p, List.mem_of_find?_eq_some hp, hv⟩

theorem mem_dextend {d : Dict (List Str)} {k : Str} {files : List Str}
    {kv : Str × List Str} (h : kv ∈ dextend d k files) :
    kv ∈ d ∨ kv.2 = files ∨ ∃ old, dlookup d k = some old ∧ kv.2 = old ++ files := by
  unfold dextend at h
  cases hl : dlookup d k with
  | none =>
    rw [hl] at h
    rcases List.mem_append.mp h with h₁ | h₁
    · exact Or.inl h₁
    · right; left
      rw [List.mem_singleton] at h₁
      simp [h₁]
  | some old =>
    rw [hl] at h
    rcases List.mem_map.mp h with ⟨p, hp, hpe⟩
    by_cases hpk : p.1 = k
    · right; right
      exact ⟨old, rfl, by simp [← hpe, hpk]⟩
    · left
      simpa [← hpe, hpk] using hp

/-! ## Characterization of build_ctanDict -/

theorem build_foldl_lookup (l : List CtanItem) (d : Dict PkgRecord) (k : Str) :
    dlookup (l.foldl (fun d x => dinsert d x.key (mkCtanRecord x)) d) k =
      match l.reverse.find? (fun x => decide (x.key = k)) with
      | some x => some (mkCtanRecord x)
      | none => dlookup d k := by
  induction l generalizing d with
  | nil => rfl
  | cons x xs ih =>
    rw [List.foldl_cons, ih, List.reverse_cons, List.find?_append]
    cases h : xs.reverse.find? (fun x => decide (x.key = k)) with
    | some y => rfl
    | none =>
      by_cases hk : x.key = k
      · subst hk
        have hfind : [x].find? (fun y => decide (y.key = x.key)) = some x :=
          List.find?_cons_of_pos _ (by simp)
        rw [hfind]
        exact dlookup_dinsert_self d x.key (mkCtanRecord x)
      · have hfind : [x].find? (fun y => decide (y.key = k)) = none := by
          rw [List.find?_cons_of_neg _ (by simp [hk])]
          rfl
        rw [hfind]
        exact dlookup_dinsert_ne d (mkCtanRecord x) (fun he => hk he.symm)

theorem build_ctanDict_lookup (l : List CtanItem) (k : Str) :
    dlookup (build_ctanDict l) k =
      match l.reverse.find? (fun x => decide (x.key = k)) with
      | some x => some (mkCtanRecord x)
      | none => none := by
  rw [build_ctanDict, build_foldl_lookup]
  cases l.reverse.find? (fun x => decide (x.key = k)) <;> rfl

theorem build_ctanDict_lookup_some {l : List CtanItem} {k : Str} {r : PkgRecord}
    (h : dlookup (build_ctanDict l) k = some r) :
    r.command = k ∧ r.documentation = ctanUrl ++ k ∧
      ∃ x ∈ l, x.key = k ∧ r.detail = x.caption := by
  rw [build_ctanDict_lookup] at h
  cases hf : l.reverse.find? (fun x => decide (x.key = k)) with
  | none => rw [hf] at h; cases h
  | some x =>
    rw [hf] at h
    have hx : x.key = k := by simpa using List.find?_some hf
    have hmem : x ∈ l := List.mem_reverse.mp (List.mem_of_find?_eq_some hf)
    cases h
    exact ⟨hx, by rw [mkCtanRecord, hx], x, hmem, hx, rfl⟩

theorem build_foldl_wf (l : List CtanItem) (d : Dict PkgRecord)
    (h : (dkeys d).Nodup) :
    (dkeys (l.foldl (fun d x => dinsert d x.key (mkCtanRecord x)) d)).Nodup := by
  induction l generalizing d with
  | nil => exact h
  | cons x xs ih => exact ih _ (dkeys_dinsert_nodup _ _ _ h)

theorem build_ctanDict_wf (l : List CtanItem) : (dkeys (build_ctanDict l)).Nodup :=
  build_foldl_wf l [] List.nodup_nil

/-! ## Characterization of get_packages -/

theorem pkg_foldl_lookup_not_mem (lsRdb : Dict (List Str)) (allsty : List Str)
    (d : Dict PkgRecord) (acc : Dict PkgRecord) (k : Str) (hk : k ∉ dkeys d) :
    dlookup (d.foldl (pkgStep lsRdb allsty) acc) k = dlookup acc k := by
  induction d generalizing acc with
  | nil => rfl
  | cons p tl ih =>
    rw [dkeys_cons, List.mem_cons] at hk
    push_neg at hk
    rw [List.foldl_cons, ih _ hk.2]
    unfold pkgStep
    cases package2sty p.1 lsRdb allsty with
    | none => rfl
    | some b => exact dlookup_dinsert_ne acc _ hk.1

theorem pkg_foldl_lookup (lsRdb : Dict (List Str)) (allsty : List Str)
    (d : Dict PkgRecord) (acc : Dict PkgRecord) (k : Str)
    (hwf : (dkeys d).Nodup) :
    dlookup (d.foldl (pkgStep lsRdb allsty) acc) k =
      match dlookup d k with
      | some r =>
        match package2sty k lsRdb allsty with
        | some b => some { r with command := b }
        | none => dlookup acc k
      | none => dlookup acc k := by
  induction d generalizing acc with
  | nil => rfl
  | cons p tl ih =>
    rcases p with ⟨k₁, r₁⟩
    rw [dkeys_cons, List.nodup_cons] at hwf
    rw [List.foldl_cons, dlookup_cons]
    by_cases hk : k₁ = k
    · subst hk
      rw [if_pos rfl, pkg_foldl_lookup_not_mem _ _ tl _ k₁ hwf.1]
      unfold pkgStep
      cases package2sty k₁ lsRdb allsty with
      | none => rfl
      | some b => exact dlookup_dinsert_self acc k₁ _
    · have hacc : dlookup (pkgStep lsRdb allsty acc (k₁, r₁)) k = dlookup acc k := by
        unfold pkgStep
        cases package2sty k₁ lsRdb allsty with
        | none => rfl
        | some b => exact dlookup_dinsert_ne acc _ (fun he => hk he.symm)
      rw [if_neg hk, ih _ hwf.2]
      cases dlookup tl k with
      | none => exact hacc
      | some r =>
        cases package2sty k lsRdb allsty with
        | none => exact hacc
        | some b => rfl

theorem get_packages_lookup (lsRdb : Dict (List Str)) (ctanDict : Dict PkgRecord)
    (allsty : List Str) (k : Str) (hwf : (dkeys ctanDict).Nodup) :
    dlookup (get_packages lsRdb ctanDict allsty) k =
      match dlookup ctanDict k with
      | some r =>
        match package2sty k lsRdb allsty with
        | some b => some { r with command := b }
        | none => none
      | none => none := by
  rw [get_packages, pkg_foldl_lookup lsRdb allsty ctanDict [] k hwf]
  cases dlookup ctanDict k with
  | none => rfl
  | some r => cases package2sty k lsRdb allsty <;> rfl

/-! ## Characterization of get_classes -/

theorem cls_foldl_lookup (ctanDict : Dict PkgRecord) (files : List Str)
    (acc : Dict PkgRecord) (b : Str) :
    dlookup (files.foldl (clsStep ctanDict) acc) b =
      if files.any (fun c => endswith c extCls && decide (pathStem c = b)) then
        some (classRecord ctanDict b)
      else dlookup acc b := by
  induction files generalizing acc with
  | nil => rfl
  | cons c rest ih =>
    rw [List.foldl_cons, ih, List.any_cons]
    by_cases hr : rest.any (fun c => endswith c extCls && decide (pathStem c = b))
    · simp only [hr, Bool.or_true, if_true]
    · simp only [hr, Bool.or_false]
      by_cases hc : endswith c extCls = true
      · by_cases hb : pathStem c = b
        · subst hb
          simp [clsStep, hc, dlookup_dinsert_self]
        · simp [clsStep, hc, hb, dlookup_dinsert_ne acc _ (fun he => hb he.symm)]
      · simp [clsStep, Bool.eq_false_iff.mpr hc]

theorem get_classes_lookup (all_lsR_files : List Str) (ctanDict : Dict PkgRecord)
    (b : Str) :
    dlookup (get_classes all_lsR_files ctanDict) b =
      if all_lsR_files.any (fun c => endswith c extCls && decide (pathStem c = b)) then
        some (classRecord ctanDict b)
      else none := by
  rw [get_classes, cls_foldl_lookup]
  rfl

/-! ## Characterization of add_extra_packages -/

theorem extraStep_eq_mem (acc : Dict PkgRecord) (p : Str × PkgRecord)
    (h : dmem acc p.1 = true) : extraStep acc p = acc := by
  simp [extraStep, h]

theorem extraStep_eq_new (acc : Dict PkgRecord) (p : Str × PkgRecord)
    (h : dmem acc p.1 = false) : extraStep acc p = acc ++ [p] := by
  simp [extraStep, h]

theorem extra_foldl_lookup_mem (extras : Dict PkgRecord) (acc : Dict PkgRecord)
    (k : Str) (h : dmem acc k = true) :
    dlookup (extras.foldl extraStep acc) k = dlookup acc k := by
  induction extras generalizing acc with
  | nil => rfl
  | cons p tl ih =>
    rw [List.foldl_cons]
    rcases (dmem_iff_exists acc k).mp h with ⟨v, hv⟩
    by_cases hm : dmem acc p.1 = true
    · rw [extraStep_eq_mem acc p hm]
      exact ih acc h
    · rw [extraStep_eq_new acc p (Bool.eq_false_iff.mpr hm)]
      rw [ih _ ((dmem_iff_exists _ k).mpr ⟨v, dlookup_append_some _ hv⟩)]
      rw [dlookup_append_some _ hv, hv]

theorem extra_foldl_lookup_new (extras : Dict PkgRecord) (acc : Dict PkgRecord)
    (k : Str) (hnew : dmem acc k = false) (hmem : dmem extras k = true) :
    dlookup (extras.foldl extraStep acc) k = dlookup extras k := by
  induction extras generalizing acc with
  | nil => simp [dmem, dlookup_nil] at hmem
  | cons p tl ih =>
    rcases p with ⟨k₁, v₁⟩
    rw [List.foldl_cons, dlookup_cons]
    by_cases hk : k₁ = k
    · subst hk
      rw [extraStep_eq_new acc (k₁, v₁) hnew]
      have hv : dlookup (acc ++ [(k₁, v₁)]) k₁ = some v₁ := by
        rw [dlookup_append_none _ ((dmem_eq_false_iff _ _).mp hnew), dlookup_cons,
          if_pos rfl]
      rw [extra_foldl_lookup_mem tl _ k₁ ((dmem_iff_exists _ _).mpr ⟨v₁, hv⟩), hv,
        if_pos rfl]
    · rw [if_neg hk]
      have hmem' : dmem tl k = true := by
        rw [dmem_iff_exists] at hmem ⊢
        rcases hmem with ⟨v, hv⟩
        rw [dlookup_cons, if_neg hk] at hv
        exact ⟨v, hv⟩
      by_cases hm : dmem acc k₁ = true
      · rw [extraStep_eq_mem acc (k₁, v₁) hm]
        exact ih acc hnew hmem'
      · rw [extraStep_eq_new acc (k₁, v₁) (Bool.eq_false_iff.mpr hm)]
        apply ih _ _ hmem'
        rw [dmem_eq_false_iff, dlookup_append_none _ ((dmem_eq_false_iff _ _).mp hnew),
          dlookup_cons, if_neg hk]
        rfl

theorem extra_foldl_lookup_cases (extras : Dict PkgRecord) (acc : Dict PkgRecord)
    (k : Str) (r : PkgRecord) (h : dlookup (extras.foldl extraStep acc) k = some r) :
    dlookup acc k = some r ∨ ∃ p ∈ extras, p.2 = r := by
  induction extras generalizing acc with
  | nil => exact Or.inl h
  | cons p tl ih =>
    rw [List.foldl_cons] at h
    rcases ih _ h with h1 | h1
    · by_cases hm : dmem acc p.1 = true
      · rw [extraStep_eq_mem acc p hm] at h1
        exact Or.inl h1
      · rw [extraStep_eq_new acc p (Bool.eq_false_iff.mpr hm)] at h1
        cases hacc : dlookup acc k with
        | some v =>
          rw [dlookup_append_some _ hacc] at h1
          exact Or.inl h1
        | none =>
          rcases p with ⟨k₁, v₁⟩
          rw [dlookup_append_none _ hacc, dlookup_cons] at h1
          by_cases hk : k₁ = k
          · rw [if_pos hk] at h1
            right
            exact ⟨(k₁, v₁), List.mem_cons_self _ tl, Option.some.inj h1⟩
          · rw [if_neg hk] at h1
            simp [dlookup_nil] at h1
    · right
      rcases h1 with ⟨q, hq, he⟩
      exact ⟨q, List.mem_cons_of_mem p hq, he⟩

/-! ## Lemmas about splitChar, pathName and pathSuffix -/

theorem splitChar_ne_nil (sep : Char) : ∀ s : Str, splitChar sep s ≠ []
  | [] => by simp [splitChar]
  | c :: cs => by
    unfold splitChar
    cases h : splitChar sep cs with
    | nil => simp
    | cons p ps => by_cases hc : c = sep <;> simp [hc]

theorem splitChar_append (sep c : Char) (hc : c ≠ sep) :
    ∀ l : Str, splitChar sep (l ++ [c]) =
      (splitChar sep l).dropLast ++ [((splitChar sep l).getLast?.getD []) ++ [c]]
  | [] => by simp [splitChar, hc]
  | a :: as => by
    rw [List.cons_append]
    unfold splitChar
    rw [splitChar_append sep c hc as]
    cases h : splitChar sep as with
    | nil => exact absurd h (splitChar_ne_nil sep as)
    | cons q qs =>
      cases qs with
      | nil => by_cases ha : a = sep <;> simp [ha]
      | cons q1 qs1 => by_cases ha : a = sep <;> simp [ha]

theorem keepPart_concat (x : Str) (c : Char) (hc : c ≠ '.') :
    keepPart (x ++ [c]) = true := by
  simp only [keepPart, decide_eq_true_eq]
  refine ⟨by simp, fun h => ?_⟩
  have h2 := congrArg List.getLast? h
  rw [List.getLast?_concat] at h2
  simp at h2
  exact hc h2

theorem pathName_concat (l : Str) (c : Char) (hsep : c ≠ '/') (hdot : c ≠ '.') :
    (pathName (l ++ [c])).getLast? = some c := by
  unfold pathName pathParts
  rw [splitChar_append '/' c hsep l, List.filter_append,
    List.filter_cons_of_pos (keepPart_concat _ c hdot), List.filter_nil,
    List.getLast?_concat]
  simp [List.getLast?_concat]

theorem endswith_concat {s : Str} {c : Char} (h : endswith s [c] = true) :
    ∃ t, s = t ++ [c] := by
  unfold endswith at h
  rw [List.isSuffixOf_iff_suffix] at h
  rcases h with ⟨t, ht⟩
  exact ⟨t, ht.symm⟩

theorem getLast?_drop_of_lt : ∀ (n : Str) (i : Nat), i < n.length →
    (n.drop i).getLast? = n.getLast?
  | _, 0, _ => by simp
  | [], i + 1, h => by simp at h
  | a :: t, i + 1, h => by
    rw [List.drop_succ_cons, getLast?_drop_of_lt t i (by simpa using h)]
    cases t with
    | nil => simp at h
    | cons b t2 => rw [List.getLast?_cons_cons]

theorem exts_no_colon : ∀ x ∈ exts, x.getLast? ≠ some ':' := by decide

theorem nil_notin_exts : ([] : Str) ∉ exts := by decide

theorem pathSuffix_colon {line : Str} (h : endswith line [':'] = true) :
    pathSuffix line ∉ exts := by
  rcases endswith_concat h with ⟨t, rfl⟩
  have hn : (pathName (t ++ [':'])).getLast? = some ':' :=
    pathName_concat t ':' (by decide) (by decide)
  unfold pathSuffix
  cases hr : rfindDot (pathName (t ++ [':'])) with
  | none => exact nil_notin_exts
  | some i =>
    dsimp only
    by_cases hcond : 0 < i ∧ i < (pathName (t ++ [':'])).length - 1
    · rw [if_pos hcond]
      intro hmem
      have hlast : ((pathName (t ++ [':'])).drop i).getLast? = some ':' := by
        rw [getLast?_drop_of_lt _ i (lt_of_lt_of_le hcond.2 (Nat.sub_le _ _))]
        exact hn
      exact exts_no_colon _ hmem hlast
    · rw [if_neg hcond]
      exact nil_notin_exts

/-! ## Parser step lemmas -/

theorem headerUpdate_header {allpkgs : List Str} {s : ParserState} {line : Str}
    (h : (endswith line [':'] && startswith line chDotSlash) = true) :
    headerUpdate allpkgs s line =
      { s with pkg := findPkg allpkgs (pathParts line.dropLast), pkgfiles := [] } := by
  unfold headerUpdate
  rw [if_pos h]

theorem headerUpdate_not_header {allpkgs : List Str} {s : ParserState} {line : Str}
    (h : (endswith line [':'] && startswith line chDotSlash) = false) :
    headerUpdate allpkgs s line = s := by
  unfold headerUpdate
  rw [if_neg (by simp [h])]

theorem blockScan_none {s1 : ParserState} (line : Str) (h : s1.pkg = none) :
    blockScan s1 line = s1 := by
  unfold blockScan
  rw [h]

theorem blockScan_no_collect {s1 : ParserState} {line : Str} {p : Str}
    (hpkg : s1.pkg = some p) (hne : line ≠ [])
    (hsuf : pathSuffix line ∉ exts) :
    blockScan s1 line = s1 := by
  unfold blockScan
  rw [hpkg]
  dsimp only
  rw [if_pos hne, if_neg hsuf]

theorem step_skipped {allpkgs : List Str} {s : ParserState} {line : Str}
    (h : (startswith line chDoc || startswith line chSource) = true) :
    step allpkgs s line = s := by
  unfold step
  rw [if_pos h]

theorem step_not_skipped {allpkgs : List Str} {s : ParserState} {line : Str}
    (h : (startswith line chDoc || startswith line chSource) = false) :
    step allpkgs s line = blockScan (headerUpdate allpkgs s line) line := by
  unfold step
  rw [if_neg (by simp [h])]

theorem step_pkg_none {allpkgs : List Str} {s : ParserState} {line : Str}
    (hpkg : s.pkg = none)
    (hh : (endswith line [':'] && startswith line chDotSlash) = false) :
    step allpkgs s line = s := by
  by_cases hd : (startswith line chDoc || startswith line chSource) = true
  · exact step_skipped hd
  · rw [step_not_skipped (Bool.eq_false_iff.mpr hd), headerUpdate_not_header hh,
      blockScan_none line hpkg]

theorem step_header {allpkgs : List Str} {s : ParserState} {line : Str}
    (hd : (startswith line chDoc || startswith line chSource) = false)
    (hh : (endswith line [':'] && startswith line chDotSlash) = true) :
    step allpkgs s line =
      { s with pkg := findPkg allpkgs (pathParts line.dropLast), pkgfiles := [] } := by
  rw [step_not_skipped hd, headerUpdate_header hh]
  have hcol : endswith line [':'] = true := by
    have h2 := hh
    simp only [Bool.and_eq_true] at h2
    exact h2.1
  have hne : line ≠ [] := by
    rcases endswith_concat hcol with ⟨t, rfl⟩
    simp
  cases hp : findPkg allpkgs (pathParts line.dropLast) with
  | none => exact blockScan_none line rfl
  | some p => exact blockScan_no_collect rfl hne (pathSuffix_colon hcol)

/-! ## Concrete inputs used by witnesses and counterexamples -/

/-- The literal "foo". -/
def sFoo : Str := ['f', 'o', 'o']

/-- The literal "x", used as a caption. -/
def sX : Str := ['x']

/-- The literal "y", used as a caption. -/
def sY : Str := ['y']

/-- The literal "a". -/
def sA : Str := ['a']

/-- The catalog record of package "foo" with caption "x". -/
def recFoo : PkgRecord := ⟨sFoo, ctanUrl ++ sFoo, sX⟩

/-- A one-package catalog table for "foo". -/
def ctanW : Dict PkgRecord := [(sFoo, recFoo)]

/-- The literal "foo.sty". -/
def sFooSty : Str := ['f', 'o', 'o', '.', 's', 't', 'y']

/-- The literal "FOO.sty". -/
def sFOOsty : Str := ['F', 'O', 'O', '.', 's', 't', 'y']

/-- The literal "FOO". -/
def sFOO : Str := ['F', 'O', 'O']

/-- The literal "Foo": a mixed-case catalog key. -/
def sFooU : Str := ['F', 'o', 'o']

/-- The catalog record of the mixed-case package "Foo". -/
def recFooU : PkgRecord := ⟨sFooU, ctanUrl ++ sFooU, sX⟩

/-- A one-package catalog table for the mixed-case key "Foo". -/
def ctanC2 : Dict PkgRecord := [(sFooU, recFooU)]

/-- A PackageFileMap attributing only "FOO.sty" to "Foo". -/
def lsRdbC2 : Dict (List Str) := [(sFooU, [sFOOsty])]

/-- The literal "article.cls". -/
def sArticleCls : Str := ['a', 'r', 't', 'i', 'c', 'l', 'e', '.', 'c', 'l', 's']

/-- The literal "article". -/
def sArticle : Str := ['a', 'r', 't', 'i', 'c', 'l', 'e']

/-- A raw catalog list with a duplicated key "a" (captions "x" then "y"). -/
def dupList : List CtanItem := [⟨sA, sX⟩, ⟨sA, sY⟩]

/-! ## Claim C1 -/

/-- Claim C1: for every catalog package key p, get_packages includes p in its
output iff package2sty resolves a command for it; in particular, when
p ++ ".sty" occurs in allsty the output at p is the catalog record of p with
command overwritten to p, and when package2sty yields none the key p is
absent from the output. -/
theorem claim_C1 (lsRdb : Dict (List Str)) (ctanDict : Dict PkgRecord)
    (allsty : List Str) (p : Str) (hwf : (dkeys ctanDict).Nodup) :
    (dmem (get_packages lsRdb ctanDict allsty) p =
      (dmem ctanDict p && (package2sty p lsRdb allsty).isSome)) ∧
    (∀ r, dlookup ctanDict p = some r → p ++ extSty ∈ allsty →
      dlookup (get_packages lsRdb ctanDict allsty) p =
        some { r with command := p }) ∧
    (package2sty p lsRdb allsty = none →
      dlookup (get_packages lsRdb ctanDict allsty) p = none) := by
  have hmaster := get_packages_lookup lsRdb ctanDict allsty p hwf
  refine ⟨?_, ?_, ?_⟩
  · rw [dmem, dmem, hmaster]
    cases dlookup ctanDict p with
    | none => rfl
    | some r => cases h2 : package2sty p lsRdb allsty <;> simp [h2]
  · intro r hr hsty
    rw [hmaster, hr]
    have hres : package2sty p lsRdb allsty = some p := by
      unfold package2sty
      rw [if_pos hsty]
    rw [hres]
  · intro hnone
    rw [hmaster, hnone]
    cases dlookup ctanDict p <;> rfl

/-- Claim C1 witness: on the catalog {foo}, empty PackageFileMap and
AllFilesList ["foo.sty"], the resolver keeps "foo" with command "foo" and
the catalog detail and documentation. -/
theorem claim_C1_witness :
    (dkeys ctanW).Nodup ∧ dlookup ctanW sFoo = some recFoo ∧
    sFoo ++ extSty ∈ [sFooSty] ∧
    dlookup (get_packages [] ctanW [sFooSty]) sFoo =
      some ⟨sFoo, ctanUrl ++ sFoo, sX⟩ :=
  ⟨by decide, by decide, by decide,
    (claim_C1 [] ctanW [sFooSty] sFoo (by decide)).2.1 recFoo (by decide) (by decide)⟩

/-! ## Claim C2 -/

/-- Claim C2 counterexample: for the catalog key "Foo" with attributed files
["FOO.sty"] and no catalog-wide "Foo.sty", the file "FOO.sty" matches
"Foo.sty" case-insensitively, yet the resolver drops "Foo" entirely instead
of emitting command "FOO": the lowercased file name is compared against the
non-lowercased candidate "Foo.sty". -/
theorem claim_C2_counterexample :
    dlookup ctanC2 sFooU = some recFooU ∧
    sFooU ++ extSty ∉ ([] : List Str) ∧
    dlookup lsRdbC2 sFooU = some [sFOOsty] ∧
    sFooU ++ extSty ∉ [sFOOsty] ∧
    lowerStr sFOOsty = lowerStr (sFooU ++ extSty) ∧
    pathStem sFOOsty = sFOO ∧
    dlookup (get_packages lsRdbC2 ctanC2 []) sFooU = none := by decide

/-- Claim C2 (amended): for every catalog package key p such that
p ++ ".sty" is not in AllFilesList, p is a key of PackageFileMap, and
p ++ ".sty" is not among its attributed files: if some attributed file
name, once lowercased, equals p ++ ".sty" exactly, then the resolver's
output at p is the catalog record with command overwritten to the stem of
the first such file. -/
theorem claim_C2_amended (lsRdb : Dict (List Str)) (ctanDict : Dict PkgRecord)
    (allsty : List Str) (p f : Str) (r : PkgRecord) (files : List Str)
    (hwf : (dkeys ctanDict).Nodup)
    (hr : dlookup ctanDict p = some r)
    (h1 : p ++ extSty ∉ allsty)
    (h2 : dlookup lsRdb p = some files)
    (h3 : p ++ extSty ∉ files)
    (h4 : files.find? (fun g => decide (lowerStr g = p ++ extSty)) = some f) :
    dlookup (get_packages lsRdb ctanDict allsty) p =
      some { r with command := pathStem f } := by
  have hmaster := get_packages_lookup lsRdb ctanDict allsty p hwf
  rw [hmaster, hr]
  have hres : package2sty p lsRdb allsty = some (pathStem f) := by
    unfold package2sty
    rw [if_neg h1, h2]
    dsimp only
    rw [if_neg h3, h4]
  rw [hres]

/-- Claim C2 witness: for the lowercase key "foo" with attributed files
["FOO.sty"], the case-insensitive fallback fires and the resolved command
is "FOO". -/
theorem claim_C2_witness :
    dlookup (get_packages [(sFoo, [sFOOsty])] ctanW []) sFoo =
      some ⟨sFOO, ctanUrl ++ sFoo, sX⟩ :=
  claim_C2_amended [(sFoo, [sFOOsty])] ctanW [] sFoo sFOOsty recFoo [sFOOsty]
    (by decide) (by decide) (by decide) (by decide) (by decide) (by decide)

/-! ## Claim C6 -/

/-- Claim C6: for every file name c in AllFilesList ending in ".cls", the
class extractor emits at stem(c) the record with command stem(c), detail
and documentation copied from the catalog when stem(c) is a key there and
empty otherwise; names not ending in ".cls" contribute nothing, and on
AllFilesList = ["article.cls"] with an empty catalog the output is exactly
the single "article" entry with empty detail and documentation. -/
theorem claim_C6 (all_lsR_files : List Str) (ctanDict : Dict PkgRecord) :
    (∀ c ∈ all_lsR_files, endswith c extCls = true →
      (∀ r, dlookup ctanDict (pathStem c) = some r →
        dlookup (get_classes all_lsR_files ctanDict) (pathStem c) =
          some ⟨pathStem c, r.documentation, r.detail⟩) ∧
      (dlookup ctanDict (pathStem c) = none →
        dlookup (get_classes all_lsR_files ctanDict) (pathStem c) =
          some ⟨pathStem c, [], []⟩)) ∧
    (∀ k, dmem (get_classes all_lsR_files ctanDict) k = true →
      ∃ c ∈ all_lsR_files, endswith c extCls = true ∧ pathStem c = k) ∧
    get_classes [sArticleCls] [] = [(sArticle, ⟨sArticle, [], []⟩)] := by
  refine ⟨?_, ?_, by decide⟩
  · intro c hc hcls
    have hany : all_lsR_files.any
        (fun x => endswith x extCls && decide (pathStem x = pathStem c)) = true := by
      rw [List.any_eq_true]
      exact ⟨c, hc, by simp [hcls]⟩
    constructor
    · intro r hr
      rw [get_classes_lookup, if_pos hany]
      unfold classRecord
      rw [hr]
    · intro hr
      rw [get_classes_lookup, if_pos hany]
      unfold classRecord
      rw [hr]
  · intro k hk
    rw [dmem, get_classes_lookup] at hk
    by_cases hany : all_lsR_files.any
        (fun c => endswith c extCls && decide (pathStem c = k)) = true
    · rw [List.any_eq_true] at hany
      rcases hany with ⟨c, hc, hpred⟩
      simp only [Bool.and_eq_true, decide_eq_true_eq] at hpred
      exact ⟨c, hc, hpred.1, hpred.2⟩
    · rw [if_neg hany] at hk
      cases hk

/-- Claim C6 witness: on AllFilesList ["article.cls", "foo.sty"] with the
catalog {foo}, the extractor emits exactly the unmatched "article" entry,
and the ".sty" name contributes nothing. -/
theorem claim_C6_witness :
    dlookup (get_classes [sArticleCls, sFooSty] ctanW) sArticle =
      some ⟨sArticle, [], []⟩ ∧
    dmem (get_classes [sArticleCls, sFooSty] ctanW) (pathStem sFooSty) = false :=
  ⟨((claim_C6 [sArticleCls, sFooSty] ctanW).1 sArticleCls (by decide)
      (by decide)).2 (by decide),
    by decide⟩

/-! ## Claim C7 -/

/-- Claim C7: the extras merger never overwrites: every key already present
in the package table keeps its original value after the merge, and every
extras key absent from the package table is inserted with the extras
value. -/
theorem claim_C7 (packages extra_packages : Dict PkgRecord) :
    (∀ k, dmem packages k = true →
      dlookup (add_extra_packages packages extra_packages) k =
        dlookup packages k) ∧
    (∀ k, dmem extra_packages k = true → dmem packages k = false →
      dlookup (add_extra_packages packages extra_packages) k =
        dlookup extra_packages k) := by
  constructor
  · intro k hk
    exact extra_foldl_lookup_mem extra_packages packages k hk
  · intro k hmem hnew
    exact extra_foldl_lookup_new extra_packages packages k hnew hmem

/-- Claim C7 witness: merging extras {foo ↦ ⟨"FOO","",""⟩, a ↦ ⟨"a","",""⟩}
into {foo ↦ recFoo} keeps the original "foo" record and inserts the new
"a" record. -/
theorem claim_C7_witness :
    dlookup (add_extra_packages ctanW [(sFoo, ⟨sFOO, [], []⟩), (sA, ⟨sA, [], []⟩)])
        sFoo = some recFoo ∧
    dlookup (add_extra_packages ctanW [(sFoo, ⟨sFOO, [], []⟩), (sA, ⟨sA, [], []⟩)])
        sA = some ⟨sA, [], []⟩ :=
  ⟨((claim_C7 ctanW [(sFoo, ⟨sFOO, [], []⟩), (sA, ⟨sA, [], []⟩)]).1 sFoo
      (by decide)).trans (by decide),
    ((claim_C7 ctanW [(sFoo, ⟨sFOO, [], []⟩), (sA, ⟨sA, [], []⟩)]).2 sA
      (by decide) (by decide)).trans (by decide)⟩

/-! ## Claim C10 -/

/-- Claim C10 counterexample: with the raw catalog list
[{key "a", caption "x"}, {key "a", caption "y"}], the loader does not map
"a" to the record derived from the first record (caption "x"): the later
duplicate overwrites it, so the claim's universally quantified mapping
fails for the record with caption "x". -/
theorem claim_C10_counterexample :
    (⟨sA, sX⟩ : CtanItem) ∈ dupList ∧
    dlookup (build_ctanDict dupList) sA ≠ some ⟨sA, ctanUrl ++ sA, sX⟩ ∧
    dlookup (build_ctanDict dupList) sA = some ⟨sA, ctanUrl ++ sA, sY⟩ := by
  decide

/-- Claim C10 (amended): for every raw record with key k and caption c that
is the last record with key k, the loader maps k to
{command k, documentation "https://ctan.org/pkg/" + k, detail c}; and for
every loaded key, command is the key and documentation is the URL derived
from the key. -/
theorem claim_C10_amended (l : List CtanItem) (k c : Str)
    (hlast : l.reverse.find? (fun x => decide (x.key = k)) = some ⟨k, c⟩) :
    dlookup (build_ctanDict l) k = some ⟨k, ctanUrl ++ k, c⟩ ∧
    (∀ k2 r, dlookup (build_ctanDict l) k2 = some r →
      r.command = k2 ∧ r.documentation = ctanUrl ++ k2) := by
  constructor
  · rw [build_ctanDict_lookup, hlast]
    rfl
  · intro k2 r hr
    rcases build_ctanDict_lookup_some hr with ⟨h1, h2, _⟩
    exact ⟨h1, h2⟩

/-- Claim C10 witness: on the duplicated raw list the last "a" record wins
and its documentation is the derived URL. -/
theorem claim_C10_witness :
    dupList.reverse.find? (fun x => decide (x.key = sA)) = some ⟨sA, sY⟩ ∧
    dlookup (build_ctanDict dupList) sA = some ⟨sA, ctanUrl ++ sA, sY⟩ :=
  ⟨by decide, (claim_C10_amended dupList sA sY (by decide)).1⟩

/-! ## Claims C3, C4, C5: the parser -/

/-- A helper for the run-level statement of claim C5: if the current
package is none and no line of the list is an unskipped header, the whole
fold leaves the state unchanged. -/
theorem runParser_all_skipped (allpkgs : List Str) :
    ∀ (lines : List Str) (s : ParserState), s.pkg = none →
      (∀ line ∈ lines,
        (endswith line [':'] && startswith line chDotSlash) = true →
        (startswith line chDoc || startswith line chSource) = true) →
      lines.foldl (step allpkgs) s = s
  | [], _, _, _ => rfl
  | line :: rest, s, hpkg, hall => by
    rw [List.foldl_cons]
    have hstep : step allpkgs s line = s := by
      by_cases hd : (startswith line chDoc || startswith line chSource) = true
      · exact step_skipped hd
      · by_cases hh : (endswith line [':'] && startswith line chDotSlash) = true
        · exact absurd (hall line (List.mem_cons_self _ _) hh) hd
        · exact step_pkg_none hpkg (Bool.eq_false_iff.mpr hh)
    rw [hstep]
    exact runParser_all_skipped allpkgs rest s hpkg
      (fun l hl => hall l (List.mem_cons_of_mem _ hl))

/-- The header line "./doc/foo:". -/
def hdrDocFoo : Str := ['.', '/', 'd', 'o', 'c', '/', 'f', 'o', 'o', ':']

/-- The header line "./x/foo:". -/
def hdrXFoo : Str := ['.', '/', 'x', '/', 'f', 'o', 'o', ':']

/-- The header line "./zzz:". -/
def hdrZzz : Str := ['.', '/', 'z', 'z', 'z', ':']

/-- The header line "./doc/x:". -/
def hdrDocX : Str := ['.', '/', 'd', 'o', 'c', '/', 'x', ':']

/-- A parser state with an active package and non-empty tables, used to
observe what a step changes. -/
def stW : ParserState := ⟨[(sA, [sA])], some sA, [sFooSty], [sFooSty]⟩

/-- Claim C3 counterexample: the header line "./doc/foo:" ends in ':' and
starts with the path-root marker "./", and its innermost path segment
matching the catalog {foo} is "foo"; yet the parser, which filters doc
lines before the header handling, performs no accumulator reset and no
package switch: the step is the identity and the current package stays
none rather than becoming "foo". -/
theorem claim_C3_counterexample :
    endswith hdrDocFoo [':'] = true ∧
    startswith hdrDocFoo chDotSlash = true ∧
    (pathParts hdrDocFoo.dropLast).reverse.find?
      (fun part => decide (part ∈ [sFoo])) = some sFoo ∧
    step [sFoo] initState hdrDocFoo = initState ∧
    initState.pkg = none := by decide

/-- Claim C3 (amended): for every header line ending in ':' and starting
with "./" that is not filtered out as doc or source, the parser resets the
accumulator, leaves lsRdb and allfiles unchanged, and sets the current
package to the first path segment, scanning innermost outward, that
exactly equals a catalog key (none when no segment matches); and while the
current package is none, every non-header line leaves the state
unchanged, so the file lines of an unmatched block are ignored. -/
theorem claim_C3_amended (allpkgs : List Str) (s : ParserState) (line : Str)
    (hd : (startswith line chDoc || startswith line chSource) = false)
    (hh : (endswith line [':'] && startswith line chDotSlash) = true) :
    (step allpkgs s line).pkg =
      (pathParts line.dropLast).reverse.find? (fun part => decide (part ∈ allpkgs)) ∧
    (step allpkgs s line).pkgfiles = [] ∧
    (step allpkgs s line).lsRdb = s.lsRdb ∧
    (step allpkgs s line).allfiles = s.allfiles ∧
    (∀ (s2 : ParserState) (line2 : Str), s2.pkg = none →
      (endswith line2 [':'] && startswith line2 chDotSlash) = false →
      step allpkgs s2 line2 = s2) := by
  rw [step_header hd hh]
  exact ⟨rfl, rfl, rfl, rfl, fun s2 line2 h1 h2 => step_pkg_none h1 h2⟩

/-- Claim C3 witness: the unskipped header "./x/foo:" against the catalog
{foo}, from a state with an active package and non-empty tables, switches
the package to "foo", clears the accumulator and leaves both outputs
unchanged. -/
theorem claim_C3_witness :
    (step [sFoo] stW hdrXFoo).pkg = some sFoo ∧
    (step [sFoo] stW hdrXFoo).pkgfiles = [] ∧
    (step [sFoo] stW hdrXFoo).lsRdb = stW.lsRdb ∧
    (step [sFoo] stW hdrXFoo).allfiles = stW.allfiles := by
  have h := claim_C3_amended [sFoo] stW hdrXFoo (by decide) (by decide)
  exact ⟨h.1.trans (by decide), h.2.1, h.2.2.1, h.2.2.2.1⟩

/-- Claim C4: file collection into PackageFileMap and AllFilesList is
gated on an active current package, for every line the parser processes:
while the current package is none, a non-header line leaves the whole
state unchanged; a doc or source line is skipped outright; and a header
whose path segments match no catalog key leaves lsRdb and allfiles
unchanged with the current package none — so no file name of a block
whose directory matched no catalog key ever reaches either output. -/
theorem claim_C4 (allpkgs : List Str) (s : ParserState) (line : Str) :
    (s.pkg = none →
      (endswith line [':'] && startswith line chDotSlash) = false →
      step allpkgs s line = s) ∧
    ((startswith line chDoc || startswith line chSource) = true →
      step allpkgs s line = s) ∧
    ((startswith line chDoc || startswith line chSource) = false →
      (endswith line [':'] && startswith line chDotSlash) = true →
      findPkg allpkgs (pathParts line.dropLast) = none →
      (step allpkgs s line).lsRdb = s.lsRdb ∧
      (step allpkgs s line).allfiles = s.allfiles ∧
      (step allpkgs s line).pkg = none) := by
  refine ⟨fun h1 h2 => step_pkg_none h1 h2, fun h => step_skipped h, ?_⟩
  intro hd hh hm
  rw [step_header hd hh, hm]
  exact ⟨rfl, rfl, rfl⟩

/-- Claim C4 witness: with no active package, the file line "foo.sty" is
ignored entirely, and the unmatched header "./zzz:" leaves both outputs
empty with the current package still none. -/
theorem claim_C4_witness :
    step [sFoo] initState sFooSty = initState ∧
    (step [sFoo] initState hdrZzz).allfiles = [] ∧
    (step [sFoo] initState hdrZzz).pkg = none := by
  have h1 := (claim_C4 [sFoo] initState sFooSty).1 rfl (by decide)
  have h3 := (claim_C4 [sFoo] initState hdrZzz).2.2 (by decide) (by decide) (by decide)
  exact ⟨h1, h3.2.1, h3.2.2⟩

/-- Claim C5: every line starting with "./doc" or "./source" — in
particular the header of every block whose directory path begins with a
doc or source top-level segment — is skipped entirely, the step being the
identity on the parser state; and on an index all of whose header lines
are such lines, the parser returns an empty PackageFileMap and an empty
AllFilesList. -/
theorem claim_C5 :
    (∀ (allpkgs : List Str) (s : ParserState) (line : Str),
      (startswith line chDoc || startswith line chSource) = true →
      step allpkgs s line = s) ∧
    (∀ (lines : List Str) (ctanDict : Dict PkgRecord),
      (∀ line ∈ lines,
        (endswith line [':'] && startswith line chDotSlash) = true →
        (startswith line chDoc || startswith line chSource) = true) →
      load_texmfbd lines ctanDict = ([], [])) := by
  constructor
  · intro allpkgs s line h
    exact step_skipped h
  · intro lines ctanDict hall
    unfold load_texmfbd runParser
    rw [runParser_all_skipped (dkeys ctanDict) lines initState rfl hall]
    rfl

/-- Claim C5 witness: the doc header "./doc/x:" is the identity step even
from a state with an active package, and the index consisting of the block
"./doc/x:", "foo.sty", blank produces empty outputs against the catalog
{foo}. -/
theorem claim_C5_witness :
    step [sFoo] stW hdrDocX = stW ∧
    load_texmfbd [hdrDocX, sFooSty, []] ctanW = ([], []) :=
  ⟨claim_C5.1 [sFoo] stW hdrDocX (by decide),
    claim_C5.2 [hdrDocX, sFooSty, []] ctanW (by decide)⟩

/-! ## Claim C8 -/

theorem headerUpdate_lsRdb (allpkgs : List Str) (s : ParserState) (line : Str) :
    (headerUpdate allpkgs s line).lsRdb = s.lsRdb := by
  unfold headerUpdate
  split <;> rfl

theorem blockScan_lsRdb_nonblank (s1 : ParserState) {line : Str}
    (hne : line ≠ []) : (blockScan s1 line).lsRdb = s1.lsRdb := by
  unfold blockScan
  cases s1.pkg with
  | none => rfl
  | some p =>
    dsimp only
    rw [if_pos hne]
    split <;> rfl

theorem step_lsRdb_nonblank (allpkgs : List Str) (s : ParserState) {line : Str}
    (hne : line ≠ []) : (step allpkgs s line).lsRdb = s.lsRdb := by
  by_cases hd : (startswith line chDoc || startswith line chSource) = true
  · rw [step_skipped hd]
  · rw [step_not_skipped (Bool.eq_false_iff.mpr hd),
      blockScan_lsRdb_nonblank _ hne, headerUpdate_lsRdb]

/-- The accumulator is always a suffix of AllFilesList: every pending file
was already appended to allfiles when it was scanned. -/
theorem step_acc_suffix (allpkgs : List Str) (s : ParserState) (line : Str)
    (h : ∃ pre, s.allfiles = pre ++ s.pkgfiles) :
    ∃ pre, (step allpkgs s line).allfiles = pre ++ (step allpkgs s line).pkgfiles := by
  by_cases hd : (startswith line chDoc || startswith line chSource) = true
  · rw [step_skipped hd]
    exact h
  · rw [step_not_skipped (Bool.eq_false_iff.mpr hd)]
    have hhu : ∃ pre, (headerUpdate allpkgs s line).allfiles =
        pre ++ (headerUpdate allpkgs s line).pkgfiles := by
      unfold headerUpdate
      split
      · exact ⟨s.allfiles, by simp⟩
      · exact h
    rcases hhu with ⟨pre, hpre⟩
    unfold blockScan
    cases (headerUpdate allpkgs s line).pkg with
    | none => exact ⟨pre, hpre⟩
    | some p =>
      dsimp only
      by_cases hne : line ≠ []
      · rw [if_pos hne]
        by_cases hsuf : pathSuffix line ∈ exts
        · rw [if_pos hsuf]
          exact ⟨pre, by rw [hpre, List.append_assoc]⟩
        · rw [if_neg hsuf]
          exact ⟨pre, hpre⟩
      · rw [if_neg hne]
        split <;> exact ⟨pre, hpre⟩

theorem runParser_acc_suffix (allpkgs : List Str) :
    ∀ (lines : List Str) (s : ParserState),
      (∃ pre, s.allfiles = pre ++ s.pkgfiles) →
      ∃ pre, (lines.foldl (step allpkgs) s).allfiles =
        pre ++ (lines.foldl (step allpkgs) s).pkgfiles
  | [], _, h => h
  | line :: rest, s, h => by
    rw [List.foldl_cons]
    exact runParser_acc_suffix allpkgs rest _ (step_acc_suffix allpkgs s line h)

/-- The header line "./foo:". -/
def hdrFoo : Str := ['.', '/', 'f', 'o', 'o', ':']

/-- The header line "./bar:". -/
def hdrBar : Str := ['.', '/', 'b', 'a', 'r', ':']

/-- The literal "bar". -/
def sBar : Str := ['b', 'a', 'r']

/-- The catalog record of package "bar" with caption "y". -/
def recBar : PkgRecord := ⟨sBar, ctanUrl ++ sBar, sY⟩

/-- A two-package catalog table for "foo" and "bar". -/
def ctanFB : Dict PkgRecord := [(sFoo, recFoo), (sBar, recBar)]

/-- The literal "a.sty". -/
def sAsty : Str := ['a', '.', 's', 't', 'y']

/-- The literal "b.sty". -/
def sBsty : Str := ['b', '.', 's', 't', 'y']

/-- Claim C8 counterexample: in the index "./foo:", "a.sty", "./doc/x:",
blank — where the block header line "./doc/x:" immediately follows a file
line with no intervening blank — the pending accumulator is NOT discarded:
the doc header is skipped without touching the state, and the later blank
commits "a.sty" into PackageFileMap under "foo". -/
theorem claim_C8_counterexample :
    endswith hdrDocX [':'] = true ∧ startswith hdrDocX chDotSlash = true ∧
    (load_texmfbd [hdrFoo, sAsty, hdrDocX, []] ctanW).1 = [(sFoo, [sAsty])] := by
  decide

/-- Claim C8 (amended): PackageFileMap changes only on blank lines, so an
input ending without a trailing blank discards the pending accumulator; a
non-skipped block header (one not starting with "./doc" or "./source")
immediately following file lines discards the pending accumulator without
committing it; the pending files are nevertheless already in AllFilesList,
of which the accumulator is always a suffix; and on the blankless index
"./foo:", "a.sty", "./bar:", "b.sty" against the catalog {foo, bar} the
parser returns an empty PackageFileMap while AllFilesList holds both
files. -/
theorem claim_C8_amended :
    (∀ (allpkgs : List Str) (s : ParserState) (line : Str), line ≠ [] →
      (step allpkgs s line).lsRdb = s.lsRdb) ∧
    (∀ (allpkgs : List Str) (s : ParserState) (line : Str),
      (startswith line chDoc || startswith line chSource) = false →
      (endswith line [':'] && startswith line chDotSlash) = true →
      (step allpkgs s line).pkgfiles = [] ∧
        (step allpkgs s line).lsRdb = s.lsRdb) ∧
    (∀ (allpkgs : List Str) (lines : List Str), ∃ pre,
      (runParser allpkgs lines).allfiles =
        pre ++ (runParser allpkgs lines).pkgfiles) ∧
    load_texmfbd [hdrFoo, sAsty, hdrBar, sBsty] ctanFB = ([], [sAsty, sBsty]) := by
  refine ⟨?_, ?_, ?_, by decide⟩
  · intro allpkgs s line hne
    exact step_lsRdb_nonblank allpkgs s hne
  · intro allpkgs s line hd hh
    rw [step_header hd hh]
    exact ⟨rfl, rfl⟩
  · intro allpkgs lines
    exact runParser_acc_suffix allpkgs lines initState ⟨[], rfl⟩

/-- Claim C8 witness: a non-blank file line never changes PackageFileMap,
and the non-skipped header "./x/foo:" clears the accumulator. -/
theorem claim_C8_witness :
    (step [sFoo] stW sAsty).lsRdb = stW.lsRdb ∧
    (step [sFoo] stW hdrXFoo).pkgfiles = [] :=
  ⟨claim_C8_amended.1 [sFoo] stW sAsty (by decide),
    (claim_C8_amended.2.1 [sFoo] stW hdrXFoo (by decide) (by decide)).1⟩

/-! ## Claim C9: the stored-file invariant of the whole pipeline -/

theorem splitChar_no_sep (sep : Char) : ∀ (s : Str) (p : Str),
    p ∈ splitChar sep s → sep ∉ p
  | [], p, hp => by
    simp [splitChar] at hp
    subst hp
    simp
  | c :: cs, p, hp => by
    unfold splitChar at hp
    cases h : splitChar sep cs with
    | nil => exact absurd h (splitChar_ne_nil sep cs)
    | cons q qs =>
      rw [h] at hp
      dsimp only at hp
      by_cases hc : c = sep
      · rw [if_pos hc] at hp
        rcases List.mem_cons.mp hp with rfl | hp2
        · simp
        · exact splitChar_no_sep sep cs p (h ▸ hp2)
      · rw [if_neg hc] at hp
        rcases List.mem_cons.mp hp with rfl | hp2
        · intro hmem
          rcases List.mem_cons.mp hmem with hs | hmem2
          · exact hc hs.symm
          · exact splitChar_no_sep sep cs q (h ▸ List.mem_cons_self q qs) hmem2
        · exact splitChar_no_sep sep cs p (h ▸ List.mem_cons_of_mem q hp2)

theorem splitChar_of_no_sep (sep : Char) : ∀ s : Str, (∀ c ∈ s, c ≠ sep) →
    splitChar sep s = [s]
  | [], _ => rfl
  | c :: cs, h => by
    unfold splitChar
    rw [splitChar_of_no_sep sep cs (fun x hx => h x (List.mem_cons_of_mem c hx))]
    dsimp only
    rw [if_neg (h c (List.mem_cons_self c cs))]

theorem pathName_idem (s : Str) : pathName (pathName s) = pathName s := by
  cases h : (pathParts s).getLast? with
  | none =>
    have he : pathName s = [] := by rw [pathName, h]; rfl
    rw [he]
    rfl
  | some p =>
    have hps : pathName s = p := by rw [pathName, h]; rfl
    have hmem : p ∈ pathParts s := List.mem_of_getLast?_eq_some h
    have hkeep : keepPart p = true := List.of_mem_filter hmem
    have hnosep : ∀ c ∈ p, c ≠ '/' := fun c hc he =>
      splitChar_no_sep '/' s p (List.mem_of_mem_filter hmem) (he ▸ hc)
    rw [hps]
    unfold pathName pathParts
    rw [splitChar_of_no_sep '/' p hnosep, List.filter_cons_of_pos hkeep,
      List.filter_nil]
    rfl

theorem pathSuffix_pathName (s : Str) : pathSuffix (pathName s) = pathSuffix s := by
  unfold pathSuffix
  rw [pathName_idem]

theorem pathStem_ne_nil_of_suffix {f : Str} (h : pathSuffix f ∈ exts) :
    pathStem f ≠ [] := by
  unfold pathSuffix at h
  cases hr : rfindDot (pathName f) with
  | none =>
    rw [hr] at h
    exact absurd h nil_notin_exts
  | some i =>
    rw [hr] at h
    dsimp only at h
    by_cases hcond : 0 < i ∧ i < (pathName f).length - 1
    · unfold pathStem
      rw [hr]
      dsimp only
      rw [if_pos hcond]
      intro he
      rcases List.take_eq_nil_iff.mp he with h0 | h0
      · exact Nat.lt_irrefl 0 (h0 ▸ hcond.1)
      · have h2 := hcond.2
        rw [h0] at h2
        simp at h2
    · rw [if_neg hcond] at h
      exact absurd h nil_notin_exts

/-- Every file name the parser stores has a whitelisted suffix. -/
def goodFile (f : Str) : Prop := pathSuffix f ∈ exts

/-- The parser invariant: every file name in allfiles, in the lsRdb values
and in the pending accumulator has a whitelisted suffix. -/
def goodState (s : ParserState) : Prop :=
  (∀ f ∈ s.allfiles, goodFile f) ∧
  (∀ kv ∈ s.lsRdb, ∀ f ∈ kv.2, goodFile f) ∧
  (∀ f ∈ s.pkgfiles, goodFile f)

theorem goodState_blockScan (s1 : ParserState) (line : Str)
    (h : goodState s1) : goodState (blockScan s1 line) := by
  unfold blockScan
  cases hp : s1.pkg with
  | none => exact h
  | some p =>
    dsimp only
    by_cases hne : line ≠ []
    · rw [if_pos hne]
      by_cases hsuf : pathSuffix line ∈ exts
      · rw [if_pos hsuf]
        have hgood : goodFile (pathName line) := by
          unfold goodFile
          rw [pathSuffix_pathName]
          exact hsuf
        refine ⟨?_, h.2.1, ?_⟩
        · intro f hf
          rcases List.mem_append.mp hf with hf | hf
          · exact h.1 f hf
          · rw [List.mem_singleton] at hf
            subst hf
            exact hgood
        · intro f hf
          rcases List.mem_append.mp hf with hf | hf
          · exact h.2.2 f hf
          · rw [List.mem_singleton] at hf
            subst hf
            exact hgood
      · rw [if_neg hsuf]
        exact h
    · rw [if_neg hne]
      by_cases hlen : s1.pkgfiles.length > 0
      · rw [if_pos hlen]
        refine ⟨h.1, ?_, h.2.2⟩
        intro kv hkv f hf
        rcases mem_dextend hkv with hin | hin | ⟨old, hold, hin⟩
        · exact h.2.1 kv hin f hf
        · rw [hin] at hf
          exact h.2.2 f hf
        · rw [hin] at hf
          rcases List.mem_append.mp hf with hf | hf
          · rcases dlookup_mem_value hold with ⟨q, hq, hq2⟩
            exact h.2.1 q hq f (hq2 ▸ hf)
          · exact h.2.2 f hf
      · rw [if_neg hlen]
        exact h

theorem goodState_step (allpkgs : List Str) (s : ParserState) (line : Str)
    (h : goodState s) : goodState (step allpkgs s line) := by
  by_cases hd : (startswith line chDoc || startswith line chSource) = true
  · rw [step_skipped hd]
    exact h
  · rw [step_not_skipped (Bool.eq_false_iff.mpr hd)]
    apply goodState_blockScan
    unfold headerUpdate
    split
    · exact ⟨h.1, h.2.1, by intro f hf; cases hf⟩
    · exact h

theorem goodState_init : goodState initState := by
  refine ⟨?_, ?_, ?_⟩
  · intro f hf
    cases hf
  · intro kv hkv
    cases hkv
  · intro f hf
    cases hf

theorem goodState_run (allpkgs : List Str) :
    ∀ (lines : List Str) (s : ParserState), goodState s →
      goodState (lines.foldl (step allpkgs) s)
  | [], _, h => h
  | line :: rest, s, h => by
    rw [List.foldl_cons]
    exact goodState_run allpkgs rest _ (goodState_step allpkgs s line h)

theorem goodFile_extSty_false : ¬ goodFile extSty := by
  unfold goodFile
  decide

theorem package2sty_command_ne_nil (p : Str) (lsRdb : Dict (List Str))
    (allsty : List Str) (b : Str)
    (hall : ∀ f ∈ allsty, goodFile f)
    (hdb : ∀ kv ∈ lsRdb, ∀ f ∈ kv.2, goodFile f)
    (h : package2sty p lsRdb allsty = some b) : b ≠ [] := by
  unfold package2sty at h
  by_cases h1 : p ++ extSty ∈ allsty
  · rw [if_pos h1] at h
    cases h
    intro he
    subst he
    rw [List.nil_append] at h1
    exact goodFile_extSty_false (hall extSty h1)
  · rw [if_neg h1] at h
    cases hdl : dlookup lsRdb p with
    | none =>
      rw [hdl] at h
      cases h
    | some files =>
      rw [hdl] at h
      dsimp only at h
      by_cases h2 : p ++ extSty ∈ files
      · rw [if_pos h2] at h
        cases h
        intro he
        subst he
        rw [List.nil_append] at h2
        rcases dlookup_mem_value hdl with ⟨q, hq, hq2⟩
        exact goodFile_extSty_false (hdb q hq extSty (hq2 ▸ h2))
      · rw [if_neg h2] at h
        cases hf : files.find? (fun g => decide (lowerStr g = p ++ extSty)) with
        | none =>
          rw [hf] at h
          cases h
        | some f =>
          rw [hf] at h
          cases h
          rcases dlookup_mem_value hdl with ⟨q, hq, hq2⟩
          exact pathStem_ne_nil_of_suffix
            (hdb q hq f (hq2 ▸ List.mem_of_find?_eq_some hf))

theorem documentation_ne_nil {l : List CtanItem} {k : Str} {r : PkgRecord}
    (h : dlookup (build_ctanDict l) k = some r) : r.documentation ≠ [] := by
  rcases build_ctanDict_lookup_some h with ⟨-, h2, -⟩
  rw [h2]
  intro he
  rcases List.append_eq_nil.mp he with ⟨hurl, -⟩
  exact absurd hurl (by decide)

theorem get_packages_entry (lsRdb : Dict (List Str)) (ctanDict : Dict PkgRecord)
    (allsty : List Str) (k : Str) (r : PkgRecord)
    (hwf : (dkeys ctanDict).Nodup)
    (hr : dlookup (get_packages lsRdb ctanDict allsty) k = some r) :
    ∃ rc b, dlookup ctanDict k = some rc ∧
      package2sty k lsRdb allsty = some b ∧ r = { rc with command := b } := by
  rw [get_packages_lookup _ _ _ k hwf] at hr
  cases hc : dlookup ctanDict k with
  | none =>
    rw [hc] at hr
    cases hr
  | some rc =>
    rw [hc] at hr
    cases hp : package2sty k lsRdb allsty with
    | none =>
      rw [hp] at hr
      cases hr
    | some b =>
      rw [hp] at hr
      exact ⟨rc, b, rfl, rfl, (Option.some.inj hr).symm⟩

/-- The header line "./a:". -/
def hdrA : Str := ['.', '/', 'a', ':']

/-- The literal "a.cls". -/
def sAcls : Str := ['a', '.', 'c', 'l', 's']

/-- A raw catalog list whose only record has key "a" and an empty caption. -/
def ctanListC9 : List CtanItem := [⟨sA, []⟩]

/-- The index block "./a:", "a.cls", blank. -/
def linesC9 : List Str := [hdrA, sAcls, []]

/-- Claim C9 counterexample: running the pipeline on the catalog record
{key "a", caption ""} and the index block "./a:", "a.cls", blank, the class
entry for stem "a" has an empty detail even though "a" has a catalog
match — the empty caption propagates — so detail is not empty only for
unmatched class stems. -/
theorem claim_C9_counterexample :
    dmem (build_ctanDict ctanListC9) sA = true ∧
    dlookup (get_classes (load_texmfbd linesC9 (build_ctanDict ctanListC9)).2
        (build_ctanDict ctanListC9)) sA = some ⟨sA, ctanUrl ++ sA, []⟩ := by
  decide

/-- Claim C9 (amended): for every run of the full pipeline, every resolver
package entry has a non-empty command and carries the catalog's detail and
documentation (the latter non-empty); every class entry has a non-empty
command, carries the catalog's detail and documentation when its stem has
a catalog match (documentation then non-empty — detail equals the caption,
which may itself be empty), and has empty detail and documentation when it
has none; and when every extras record has a non-empty command, every
entry of the merged package table has a non-empty command. -/
theorem claim_C9_amended (ctanList : List CtanItem) (lines : List Str)
    (extras : Dict PkgRecord) :
    (∀ k r, dlookup (get_packages
          (load_texmfbd lines (build_ctanDict ctanList)).1
          (build_ctanDict ctanList)
          (load_texmfbd lines (build_ctanDict ctanList)).2) k = some r →
      r.command ≠ [] ∧ ∃ rc, dlookup (build_ctanDict ctanList) k = some rc ∧
        r.detail = rc.detail ∧ r.documentation = rc.documentation ∧
        r.documentation ≠ []) ∧
    (∀ k r, dlookup (get_classes
          (load_texmfbd lines (build_ctanDict ctanList)).2
          (build_ctanDict ctanList)) k = some r →
      r.command ≠ [] ∧
      (∀ rc, dlookup (build_ctanDict ctanList) k = some rc →
        r.detail = rc.detail ∧ r.documentation = rc.documentation ∧
        r.documentation ≠ []) ∧
      (dlookup (build_ctanDict ctanList) k = none →
        r.detail = [] ∧ r.documentation = [])) ∧
    ((∀ kv ∈ extras, kv.2.command ≠ []) →
      ∀ k r, dlookup (add_extra_packages (get_packages
          (load_texmfbd lines (build_ctanDict ctanList)).1
          (build_ctanDict ctanList)
          (load_texmfbd lines (build_ctanDict ctanList)).2) extras) k = some r →
      r.command ≠ []) := by
  have hwf := build_ctanDict_wf ctanList
  have hgood : goodState (runParser (dkeys (build_ctanDict ctanList)) lines) :=
    goodState_run _ lines initState goodState_init
  have hall : ∀ f ∈ (load_texmfbd lines (build_ctanDict ctanList)).2, goodFile f :=
    hgood.1
  have hdb : ∀ kv ∈ (load_texmfbd lines (build_ctanDict ctanList)).1,
      ∀ f ∈ kv.2, goodFile f := hgood.2.1
  have hpkgs : ∀ k r, dlookup (get_packages
      (load_texmfbd lines (build_ctanDict ctanList)).1
      (build_ctanDict ctanList)
      (load_texmfbd lines (build_ctanDict ctanList)).2) k = some r →
      r.command ≠ [] ∧ ∃ rc, dlookup (build_ctanDict ctanList) k = some rc ∧
        r.detail = rc.detail ∧ r.documentation = rc.documentation ∧
        r.documentation ≠ [] := by
    intro k r hr
    rcases get_packages_entry _ _ _ k r hwf hr with ⟨rc, b, hc, hp, rfl⟩
    have hdoc : rc.documentation ≠ [] := documentation_ne_nil hc
    exact ⟨package2sty_command_ne_nil k _ _ b hall hdb hp,
      rc, hc, rfl, rfl, hdoc⟩
  refine ⟨hpkgs, ?_, ?_⟩
  · intro k r hr
    rw [get_classes_lookup] at hr
    by_cases hany : ((load_texmfbd lines (build_ctanDict ctanList)).2).any
        (fun c => endswith c extCls && decide (pathStem c = k)) = true
    · rw [if_pos hany] at hr
      cases hr
      rw [List.any_eq_true] at hany
      rcases hany with ⟨c, hc, hpred⟩
      simp only [Bool.and_eq_true, decide_eq_true_eq] at hpred
      have hkne : k ≠ [] := by
        rw [← hpred.2]
        exact pathStem_ne_nil_of_suffix (hall c hc)
      refine ⟨?_, ?_, ?_⟩
      · unfold classRecord
        cases hlk : dlookup (build_ctanDict ctanList) k <;> exact hkne
      · intro rc hrc
        have hdoc : rc.documentation ≠ [] := documentation_ne_nil hrc
        unfold classRecord
        rw [hrc]
        exact ⟨rfl, rfl, hdoc⟩
      · intro hrc
        unfold classRecord
        rw [hrc]
        exact ⟨rfl, rfl⟩
    · rw [if_neg hany] at hr
      cases hr
  · intro hext k r hr
    rcases extra_foldl_lookup_cases extras _ k r hr with h1 | ⟨q, hq, he⟩
    · exact (hpkgs k r h1).1
    · rw [← he]
      exact hext q hq

/-- Claim C9 witness: on the catalog [{key "foo", caption "x"}] and the
index "./foo:", "foo.sty", blank, the resolver's entry for "foo" is the
full catalog record; applying the invariant to it gives its non-empty
command and its catalog-derived, non-empty documentation. -/
theorem claim_C9_witness :
    dlookup (get_packages
        (load_texmfbd [hdrFoo, sFooSty, []] (build_ctanDict [⟨sFoo, sX⟩])).1
        (build_ctanDict [⟨sFoo, sX⟩])
        (load_texmfbd [hdrFoo, sFooSty, []] (build_ctanDict [⟨sFoo, sX⟩])).2) sFoo
      = some recFoo ∧
    (recFoo.command ≠ [] ∧ ∃ rc,
      dlookup (build_ctanDict [⟨sFoo, sX⟩]) sFoo = some rc ∧
      recFoo.detail = rc.detail ∧ recFoo.documentation = rc.documentation ∧
      recFoo.documentation ≠ []) :=
  ⟨by decide,
    (claim_C9_amended [⟨sFoo, sX⟩] [hdrFoo, sFooSty, []] []).1 sFoo recFoo (by decide)⟩

end Ctanpkglist
